import Mathlib

/-!
Verification development for the QETpy optimal-filter core.

The sources under verification are `qetpy/core/_of_1x1.py` (the `OF1x1`
single-template optimal-filter front end), `qetpy/trigger/processing.py`
(the dump-processing driver) and the two test modules.  The `OFBase`
orchestrator, the `_fitting` helpers and the NSMB multi-template fitter are
collaborators that are not part of those sources; where a statement depends
on them, the corresponding definition below is modelled from the spec
(sections 4.2 to 4.6) and its doc comment says so explicitly.

All amplitudes, chi-squares and times are modelled over `ℚ`; the energy
resolution, which involves a square root, is modelled over `ℝ`.
-/

namespace QETpy

/-- Error kinds raised by the library, one constructor per error class named
in the spec's error taxonomy (section 7) plus `nameError` for the Python
`NameError` raised when an unbound local variable is read. -/
inductive PyError where
  | valueError
  | nameError
  | notFoundError
  | windowError
  deriving DecidableEq

/-- Outcome of a fallible call: a normal return or a raised error. -/
inductive Res (α : Type) where
  | ok (a : α)
  | err (e : PyError)
  deriving DecidableEq

/-- Fit output triple (amplitude, time shift in seconds, chi-square),
the `FitResult` of the data model (section 3). -/
structure FitResult where
  amp : ℚ
  t0 : ℚ
  chi2 : ℚ
  deriving DecidableEq

/-- Modelled from the spec (sections 4.3 and 4.4): the per-tag quantities a
delay fit reads, as cached by the OFBase orchestrator (OFBase itself is not
among the sources under src/).  `filt` is the time-domain filtered trace
(`filtered_time`), `chisqAmp` the time-invariant chi-square term, `norm`
the normalization constant, `pretrigger` the pretrigger sample index and
`fs` the sample rate. -/
structure DelayData where
  pretrigger : ℕ
  fs : ℚ
  norm : ℚ
  chisqAmp : ℚ
  filt : List ℚ
  deriving DecidableEq

/-- Modelled from the spec (section 4.4): candidate chi-square at delay
index `i`, namely `chisq_amp - norm * filtered_time[i]^2`. -/
def chi2At (d : DelayData) (i : ℕ) : ℚ :=
  d.chisqAmp - d.norm * (d.filt.getD i 0) ^ 2

/-- Modelled from the spec (section 4.4): the pulse-direction admissibility
of a candidate amplitude.  Constraint `1` excludes negative amplitudes,
`-1` excludes positive ones, `0` admits everything. -/
def directionOK (c : ℤ) (a : ℚ) : Bool :=
  if c = 1 then decide (0 ≤ a) else if c = -1 then decide (a ≤ 0) else true

/-- Modelled from the spec (section 4.4): admissible delay indices, i.e. the
indices of `[0, N)` inside the requested window whose candidate amplitude
passes the direction constraint. -/
def admissibleIdx (d : DelayData) (W : ℕ → Bool) (c : ℤ) : List ℕ :=
  (List.range d.filt.length).filter fun i => W i && directionOK c (d.filt.getD i 0)

/-- Modelled from the spec (section 4.4): keep the index with the strictly
smaller objective, so that a tie keeps the earlier index (ascending
tie-break). -/
def pickMin (f : ℕ → ℚ) (i j : ℕ) : ℕ :=
  if f j < f i then j else i

/-- Modelled from the spec (section 4.4): first index of the list (in list
order) minimizing `f`; `none` on an empty candidate list. -/
def argminList (f : ℕ → ℚ) : List ℕ → Option ℕ
  | [] => none
  | x :: xs => some (xs.foldl (pickMin f) x)

/-- Modelled from the spec (section 4.4): best delay index of the windowed,
direction-constrained search. -/
def bestDelay (d : DelayData) (W : ℕ → Bool) (c : ℤ) : Option ℕ :=
  argminList (chi2At d) (admissibleIdx d W c)

/-- Modelled from the spec (section 4.4): circular delay resolution —
indices beyond the midpoint of the trace are interpreted as negative
shifts. -/
def wrapIndex (d : DelayData) (i : ℕ) : ℤ :=
  if d.filt.length / 2 < i then (i : ℤ) - d.filt.length else (i : ℤ)

/-- Modelled from the spec (section 4.4): the fit triple reported for delay
index `i`: amplitude `filtered_time[i]`, time shift
`(wrapped index - pretrigger)/fs` seconds, and candidate chi-square. -/
def resultAt (d : DelayData) (i : ℕ) : FitResult :=
  ⟨d.filt.getD i 0, ((wrapIndex d i - d.pretrigger : ℤ) : ℚ) / d.fs, chi2At d i⟩

/-- Modelled from the spec (section 4.4) and the `OF1x1.calc` docstring:
the with-delay fit.  A constraint outside `{-1, 0, 1}` raises `ValueError`;
an empty admissible window raises `WindowError`; otherwise the minimizing
index is reported. -/
def getFitWithDelay (d : DelayData) (W : ℕ → Bool) (c : ℤ) : Res FitResult :=
  if c = -1 ∨ c = 0 ∨ c = 1 then
    match bestDelay d W c with
    | some i => .ok (resultAt d i)
    | none => .err .windowError
  else .err .valueError

/-- Modelled from the spec (section 4.4): the no-delay fit, evaluated at the
single index `pretrigger + shift` (shift given in samples), using the same
all-times chi-square constant as the windowed fit
(`use_chisq_alltimes=True`); `WindowError` if the index falls outside the
trace. -/
def getFitNoDelay (d : DelayData) (shiftSamples : ℤ) : Res FitResult :=
  if (0 ≤ (d.pretrigger : ℤ) + shiftSamples ∧
      (d.pretrigger : ℤ) + shiftSamples < d.filt.length) then
    .ok ⟨d.filt.getD ((d.pretrigger : ℤ) + shiftSamples).toNat 0,
         (shiftSamples : ℚ) / d.fs,
         chi2At d ((d.pretrigger : ℤ) + shiftSamples).toNat⟩
  else .err .windowError

/-- Stored fit results of an `OF1x1` object, one field per attribute
initialized in `OF1x1.__init__` (with-delay and no-delay triples);
`none` models the Python `None` of a not-yet-performed fit. -/
structure FitFields where
  ampWithDelay : Option ℚ
  t0WithDelay : Option ℚ
  chisqWithDelay : Option ℚ
  ampNoDelay : Option ℚ
  t0NoDelay : Option ℚ
  chisqNoDelay : Option ℚ
  deriving DecidableEq

/-- Modelled from the spec (sections 3 and 4): the per-channel orchestrator
state — kernel data (`templatePower` holds the squared magnitudes of the
template transform bins, `psd` the effective noise PSD bins), the current
signal with its cached signal-derived quantities (`filtCache`,
`chisqAmpCache`), and the stored `OF1x1` fit results. -/
structure OrchState where
  templatePower : List ℚ
  psd : List ℚ
  coupling : String
  pretrigger : ℕ
  fs : ℚ
  signal : Option (List ℚ)
  filtCache : List ℚ
  chisqAmpCache : ℚ
  fit : FitFields
  deriving DecidableEq

/-- Modelled from the spec (section 4.2): normalization constant
`norm = sum_k(|template_fft[k]|^2 / psd[k]) / N` over `ℚ`. -/
def normQ (tp pp : List ℚ) : ℚ :=
  (List.zipWith (fun t p => t / p) tp pp).sum / tp.length

/-- Delay-fit inputs assembled from the orchestrator state. -/
def delayDataOf (st : OrchState) : DelayData :=
  ⟨st.pretrigger, st.fs, normQ st.templatePower st.psd, st.chisqAmpCache, st.filtCache⟩

/-- Modelled from the spec (section 4.3): `update_signal` replaces the
current signal and recomputes the signal-derived caches; `proj` stands for
the signal projector (FFT, filter application and chi-square term), whose
frequency-domain internals are outside this embedding. -/
def updateSignal (st : OrchState) (s : List ℚ) (proj : List ℚ → List ℚ × ℚ) : OrchState :=
  { st with signal := some s, filtCache := (proj s).1, chisqAmpCache := (proj s).2 }

/-- Embedding of `OF1x1.calc` (file `qetpy/core/_of_1x1.py`, lines 186-300):
run the with-delay fit, store its triple, then optionally run the no-delay
fit and store its triple.  A raised error propagates to the caller and the
assignments after the failing call do not happen, so the second component
carries the raised error, if any, and the first the object state on exit. -/
def calcOrch (st : OrchState) (W : ℕ → Bool) (c : ℤ) (lgcFitNodelay : Bool) :
    OrchState × Option PyError :=
  match getFitWithDelay (delayDataOf st) W c with
  | .err e => (st, some e)
  | .ok r =>
    let st1 := { st with fit := { st.fit with
      ampWithDelay := some r.amp, t0WithDelay := some r.t0,
      chisqWithDelay := some r.chi2 } }
    if lgcFitNodelay then
      match getFitNoDelay (delayDataOf st1) 0 with
      | .err e => (st1, some e)
      | .ok r0 => ({ st1 with fit := { st1.fit with
          ampNoDelay := some r0.amp, t0NoDelay := some r0.t0,
          chisqNoDelay := some r0.chi2 } }, none)
    else (st1, none)

/-- One event of the natural pipeline: set the signal, then fit
(`OF1x1.calc` with a signal argument); the resulting object state. -/
def runEvent (st : OrchState) (s : List ℚ) (proj : List ℚ → List ℚ × ℚ)
    (W : ℕ → Bool) (c : ℤ) (b : Bool) : OrchState :=
  (calcOrch (updateSignal st s proj) W c b).1

/-- Modelled from the spec (section 4.6): energy resolution
`sigma = 1/sqrt(norm)`, read from the kernel data of the orchestrator
state only. -/
noncomputable def energyResolutionOrch (st : OrchState) : ℝ :=
  1 / Real.sqrt ((normQ st.templatePower st.psd : ℚ) : ℝ)

/-- Modelled from the spec (section 3): the OFBase cache — sample rate,
pretrigger, stored templates keyed by tag, the shared PSD with its coupling
mode, and the set of tags with a computed filter kernel (phi). -/
structure OFBaseState where
  sampleRate : ℚ
  pretriggerSamples : ℕ
  templates : List (String × List ℚ)
  psd : Option (List ℚ)
  coupling : String
  phis : List String
  deriving DecidableEq

/-- Tags of the stored templates (`OFBase.template_tags`); the Python
`None` for an empty store behaves like the empty list for membership. -/
def templateTags (b : OFBaseState) : List String :=
  b.templates.map Prod.fst

/-- Modelled from the spec (section 3): store a template under a tag,
replacing any previous template with that tag (exactly one template per
tag). -/
def addTemplate (b : OFBaseState) (tag : String) (t : List ℚ) : OFBaseState :=
  { b with templates := (tag, t) :: b.templates.filter fun p => p.1 != tag }

/-- Modelled from the spec (section 3): store the noise PSD and its
coupling mode. -/
def setPsd (b : OFBaseState) (p : List ℚ) (coupling : String) : OFBaseState :=
  { b with psd := some p, coupling := coupling }

/-- Modelled from the spec (section 4.2): record that the filter kernel of
a tag has been computed. -/
def calcPhi (b : OFBaseState) (tag : String) : OFBaseState :=
  { b with phis := tag :: b.phis }

/-- Modelled from the spec (section 4.2): a kernel request against the
OFBase cache (OFBase is not among the sources under src/); it fails with
`NotFoundError` for a tag with no stored template. -/
def requestKernel (b : OFBaseState) (tag : String) : Res Unit :=
  if tag ∈ templateTags b then .ok () else .err .notFoundError

/-- Outcome of `OF1x1.__init__`: completed construction, an early `return`
after printing an error message (the object exists but is left
incompletely initialized — no exception is raised), or a raised error. -/
inductive InitOutcome where
  | completed (b : OFBaseState)
  | earlyReturn
  | raised (e : PyError)
  deriving DecidableEq

/-- Modelled from the spec: a fresh OFBase instantiated by `OF1x1.__init__`
when none is supplied; the pretrigger comes from the sample count if given,
else from the millisecond value (OFBase itself is not among the sources
under src/). -/
def freshOFBase (fs : ℚ) (pretriggerMsec : Option ℚ) (pretriggerSamples : Option ℕ) :
    OFBaseState :=
  { sampleRate := fs
    pretriggerSamples :=
      match pretriggerSamples with
      | some n => n
      | none => (⌊(pretriggerMsec.getD 0) * fs / 1000⌋).toNat
    templates := []
    psd := none
    coupling := "AC"
    phis := [] }

/-- Embedding of the body of `OF1x1.__init__` (file
`qetpy/core/_of_1x1.py`, lines 116-163) once an OFBase is at hand: the
template branch (add the given template, or look the tag up and print an
error and return early when it is absent), then the PSD branch (set the
given PSD, or print an error and return early when the base has none),
then the phi precalculation. -/
def of1x1InitBody (b : OFBaseState) (tag : String) (template : Option (List ℚ))
    (psd : Option (List ℚ)) (coupling : String) : InitOutcome :=
  match
    (match template with
     | some t => some (addTemplate b tag t)
     | none => if tag ∈ templateTags b then some b else none) with
  | none => .earlyReturn
  | some b1 =>
    match
      (match psd with
       | some p => some (setPsd b1 p coupling)
       | none => if b1.psd.isSome then some b1 else none) with
    | none => .earlyReturn
    | some b2 =>
      .completed (if tag ∈ b2.phis then b2 else calcPhi b2 tag)

/-- Embedding of `OF1x1.__init__` (file `qetpy/core/_of_1x1.py`,
lines 18-163): parameter checks raising `ValueError` when no OFBase and no
sample rate or no pretrigger is supplied, then the initialization body. -/
def of1x1Init (ofBase : Option OFBaseState) (tag : String)
    (template : Option (List ℚ)) (psd : Option (List ℚ))
    (sampleRate : Option ℚ) (pretriggerMsec : Option ℚ)
    (pretriggerSamples : Option ℕ) (coupling : String) : InitOutcome :=
  match ofBase with
  | none =>
    match sampleRate with
    | none => .raised .valueError
    | some fs =>
      if pretriggerMsec = none ∧ pretriggerSamples = none then .raised .valueError
      else of1x1InitBody (freshOFBase fs pretriggerMsec pretriggerSamples)
        tag template psd coupling
  | some b => of1x1InitBody b tag template psd coupling

/-- One triggered dump, as read by `_process_single_dump`: the number of
channels of the saved traces and the summed traces to process. -/
structure Dump where
  nchan : ℕ
  traces : List (List ℚ)
  deriving DecidableEq

/-- The thirteen per-trace result columns of `_process_single_dump`
(file `qetpy/trigger/processing.py`, lines 169-171). -/
def baseColumns : List String :=
  ["ofamp_constrain", "t0_constrain", "chi2_constrain", "ofamp_pileup",
   "t0_pileup", "chi2_pileup", "ofamp_noconstrain", "t0_noconstrain",
   "chi2_noconstrain", "ofamp_nodelay", "chi2_nodelay", "chi2_lowfreq",
   "baseline"]

/-- Per-channel column names built inside the `if lgc_chans:` branch
(file `qetpy/trigger/processing.py`, lines 173-177). -/
def chanColumnsFor (nchan : ℕ) : List String :=
  ((List.range nchan).map fun i =>
    baseColumns.map fun col => col ++ "_ch" ++ toString i).flatten

/-- Embedding of `_process_single_dump` (file
`qetpy/trigger/processing.py`, lines 82-286).  `chanColumns` is bound only
inside the `if lgc_chans:` branch, modelled by an `Option`; the
unconditional `columns.extend(chan_columns)` on line 179 reads that local,
raising `NameError` when it is unbound.  The later per-trace loop (lines
207-281) is abstracted by `traceFit`, and the channel-count consistency
checks (lines 186-195) raise `ValueError`. -/
def processSingleDump (channelTemplates channelPsds : Option (List (List ℚ)))
    (traceFit : List ℚ → List ℚ) (d : Dump) : Res (List String × List (List ℚ)) :=
  match (if channelTemplates.isSome && channelPsds.isSome
         then some (chanColumnsFor d.nchan) else none) with
  | none => .err .nameError
  | some cc =>
    match channelTemplates, channelPsds with
    | some cts, some cps =>
      if cts.length = d.nchan ∧ cps.length = d.nchan then
        .ok (baseColumns ++ cc ++ ["eventnumber", "seriesnumber"], d.traces.map traceFit)
      else .err .valueError
    | _, _ =>
      .ok (baseColumns ++ cc ++ ["eventnumber", "seriesnumber"], d.traces.map traceFit)

/-- The per-file loop of `process_dumps` (file
`qetpy/trigger/processing.py`, lines 73-75): each dump is handed to
`_process_single_dump` with `channel_templates` and `channel_psds` left at
their default `None` — the caller's values are never forwarded. -/
def processDumpsLoop (traceFit : List ℚ → List ℚ) :
    List Dump → Res (List (List String × List (List ℚ)))
  | [] => .ok []
  | d :: rest =>
    match processSingleDump none none traceFit d with
    | .err e => .err e
    | .ok r =>
      match processDumpsLoop traceFit rest with
      | .err e => .err e
      | .ok rs => .ok (r :: rs)

/-- Embedding of `process_dumps` (file `qetpy/trigger/processing.py`,
lines 8-79): run the per-file loop, then concatenate the per-dump frames
(`pd.concat` raises `ValueError` on an empty result list). -/
def processDumps (filelist : List Dump)
    (channelTemplates channelPsds : Option (List (List ℚ)))
    (traceFit : List ℚ → List ℚ) : Res (List (List String × List (List ℚ))) :=
  match processDumpsLoop traceFit filelist with
  | .err e => .err e
  | .ok rs => if rs.isEmpty then .err .valueError else .ok rs

/-- Modelled from the spec (section 4.5): noise-weighted inner product of
two time-aligned template vectors, `sum_k(u[k] * v[k] * w[k])` with `w`
the per-bin weights `1/PSD`. -/
def wdot (w u v : List ℚ) : ℚ :=
  (List.zipWith (· * ·) (List.zipWith (· * ·) u v) w).sum

/-- Modelled from the spec (section 4.5): the two-template simultaneous
least-squares fit (`of_nsmb` with one signal and one background template at
a fixed shift combination, the fitter itself not being among the sources
under src/): build the 2x2 design matrix of pairwise weighted inner
products, fail when it is singular, else solve for the amplitude pair by
the explicit inverse. -/
def fitMulti (w t0 t1 s : List ℚ) : Res (ℚ × ℚ) :=
  if wdot w t0 t0 * wdot w t1 t1 - wdot w t0 t1 * wdot w t0 t1 = 0 then
    .err .valueError
  else
    .ok (((wdot w t1 t1) * (wdot w t0 s) - (wdot w t0 t1) * (wdot w t1 s)) /
           (wdot w t0 t0 * wdot w t1 t1 - wdot w t0 t1 * wdot w t0 t1),
         ((wdot w t0 t0) * (wdot w t1 s) - (wdot w t0 t1) * (wdot w t0 s)) /
           (wdot w t0 t0 * wdot w t1 t1 - wdot w t0 t1 * wdot w t0 t1))

/-- Modelled from the spec (section 4.2), over `ℝ`: normalization constant
`norm = sum_k(|template_fft[k]|^2 / psd[k]) / N`; `tp` holds the squared
magnitudes of the template transform bins. -/
noncomputable def ofNormR (tp pp : List ℝ) : ℝ :=
  (List.zipWith (fun t p => t / p) tp pp).sum / tp.length

/-- Modelled from the spec (section 4.6): energy resolution
`sigma_E = 1/sqrt(norm)`, depending only on template and PSD. -/
noncomputable def energyResolutionR (tp pp : List ℝ) : ℝ :=
  1 / Real.sqrt (ofNormR tp pp)

/-- Concrete delay data for the no-delay agreement witness. -/
def dC5ex : DelayData :=
  ⟨1, 1, 1, 10, [5, 2, 7]⟩

/-- Concrete delay data for the window-restriction witness:
chi-squares `[1, 9]`, unconstrained best index `0`. -/
def dC6ex : DelayData :=
  ⟨0, 1, 1, 10, [3, 1]⟩

/-- Concrete delay data for the direction-constraint witnesses: the
unconstrained optimum has negative amplitude `-3`. -/
def dC7ex : DelayData :=
  ⟨0, 1, 1, 10, [-3, 1]⟩

/-- Concrete orchestrator state for the error-preservation witness. -/
def stC8ex : OrchState :=
  { templatePower := [1, 1]
    psd := [1, 1]
    coupling := "AC"
    pretrigger := 0
    fs := 1
    signal := some [1, 2]
    filtCache := [1, 2]
    chisqAmpCache := 10
    fit := ⟨some 3, some 0, some 4, none, none, none⟩ }

/-- Concrete OFBase cache holding only the tag "default", for the
unknown-tag construction counterexample. -/
def baseC2ex : OFBaseState :=
  { sampleRate := 625000
    pretriggerSamples := 2
    templates := [("default", [1, 0, 0, 0])]
    psd := some [1, 1, 1, 1]
    coupling := "AC"
    phis := ["default"] }

/-- Concrete one-trace dump for the processing witness. -/
def dumpC3ex : Dump :=
  ⟨1, [[1]]⟩

/-- Weights for the multi-template round-trip witness. -/
def wC1 : List ℚ := [1, 1]

/-- Signal template for the multi-template round-trip witness. -/
def t0C1 : List ℚ := [1, 0]

/-- Background template for the multi-template round-trip witness. -/
def t1C1 : List ℚ := [0, 1]

/-- Signal amplitude of the muon-tail regression fixture,
`-4.07338835e-08` as an exact rational. -/
def a0C1 : ℚ := -407338835 / 10 ^ 16

/-- Background (muon-tail) amplitude of the regression fixture,
`1.13352442e-07` as an exact rational. -/
def a1C1 : ℚ := 113352442 / 10 ^ 15

theorem pickMin_le_left (f : ℕ → ℚ) (i j : ℕ) : f (pickMin f i j) ≤ f i := by
  unfold pickMin
  split
  · exact le_of_lt (by assumption)
  · exact le_refl _

theorem pickMin_le_right (f : ℕ → ℚ) (i j : ℕ) : f (pickMin f i j) ≤ f j := by
  unfold pickMin
  split
  · exact le_refl _
  · exact le_of_not_lt (by assumption)

theorem pickMin_cases (f : ℕ → ℚ) (i j : ℕ) : pickMin f i j = i ∨ pickMin f i j = j := by
  unfold pickMin
  split
  · exact Or.inr rfl
  · exact Or.inl rfl

theorem foldl_pickMin_mem (f : ℕ → ℚ) (xs : List ℕ) : ∀ acc,
    xs.foldl (pickMin f) acc = acc ∨ xs.foldl (pickMin f) acc ∈ xs := by
  induction xs with
  | nil => intro acc; exact Or.inl rfl
  | cons x xs ih =>
    intro acc
    rw [List.foldl_cons]
    rcases ih (pickMin f acc x) with h | h
    · rw [h]
      rcases pickMin_cases f acc x with hp | hp
      · exact Or.inl hp
      · right
        rw [hp]
        exact List.mem_cons_self x xs
    · exact Or.inr (List.mem_cons_of_mem _ h)

theorem foldl_pickMin_le (f : ℕ → ℚ) (xs : List ℕ) : ∀ acc,
    f (xs.foldl (pickMin f) acc) ≤ f acc ∧
    ∀ y ∈ xs, f (xs.foldl (pickMin f) acc) ≤ f y := by
  induction xs with
  | nil =>
    intro acc
    exact ⟨le_refl _, by simp⟩
  | cons x xs ih =>
    intro acc
    obtain ⟨h1, h2⟩ := ih (pickMin f acc x)
    rw [List.foldl_cons]
    refine ⟨le_trans h1 (pickMin_le_left f acc x), ?_⟩
    intro y hy
    rcases List.mem_cons.mp hy with rfl | hy
    · exact le_trans h1 (pickMin_le_right f acc y)
    · exact h2 y hy

theorem foldl_pickMin_self (f : ℕ → ℚ) (xs : List ℕ) : ∀ acc,
    (∀ y ∈ xs, ¬ f y < f acc) → xs.foldl (pickMin f) acc = acc := by
  induction xs with
  | nil => intro acc _; rfl
  | cons x xs ih =>
    intro acc h
    rw [List.foldl_cons]
    have hx : pickMin f acc x = acc := by
      unfold pickMin
      rw [if_neg (h x (List.mem_cons_self x xs))]
    rw [hx]
    exact ih acc fun y hy => h y (List.mem_cons_of_mem _ hy)

theorem foldl_pickMin_eq (f : ℕ → ℚ) (xs : List ℕ) : ∀ acc x, x ∈ xs →
    (∀ y ∈ xs, f x ≤ f y) → (∀ y ∈ xs, y < x → f x < f y) →
    xs.Pairwise (· < ·) → f x < f acc → xs.foldl (pickMin f) acc = x := by
  induction xs with
  | nil =>
    intro acc x hx
    exact absurd hx (List.not_mem_nil x)
  | cons z xs ih =>
    intro acc x hx hmin hfirst hpw hacc
    obtain ⟨hpwz, hpwxs⟩ := List.pairwise_cons.mp hpw
    rw [List.foldl_cons]
    rcases List.mem_cons.mp hx with rfl | hx2
    · have hz : pickMin f acc x = x := by
        unfold pickMin
        rw [if_pos hacc]
      rw [hz]
      exact foldl_pickMin_self f xs x
        fun y hy => not_lt.mpr (hmin y (List.mem_cons_of_mem _ hy))
    · have hzx : z < x := hpwz x hx2
      have hfz : f x < f z := hfirst z (List.mem_cons_self z xs) hzx
      have hacc2 : f x < f (pickMin f acc z) := by
        rcases pickMin_cases f acc z with hp | hp
        · rw [hp]; exact hacc
        · rw [hp]; exact hfz
      exact ih (pickMin f acc z) x hx2
        (fun y hy => hmin y (List.mem_cons_of_mem _ hy))
        (fun y hy hyx => hfirst y (List.mem_cons_of_mem _ hy) hyx)
        hpwxs hacc2

theorem foldl_pickMin_first (f : ℕ → ℚ) (xs : List ℕ) : ∀ acc,
    xs.Pairwise (· < ·) → (∀ y ∈ xs, acc < y) →
    (xs.foldl (pickMin f) acc = acc ∨
      (xs.foldl (pickMin f) acc ∈ xs ∧ f (xs.foldl (pickMin f) acc) < f acc)) ∧
    (∀ y ∈ xs, y < xs.foldl (pickMin f) acc →
      f (xs.foldl (pickMin f) acc) < f y) := by
  induction xs with
  | nil =>
    intro acc _ _
    exact ⟨Or.inl rfl, by simp⟩
  | cons z xs ih =>
    intro acc hpw hlt
    obtain ⟨hpwz, hpwxs⟩ := List.pairwise_cons.mp hpw
    have haz : acc < z := hlt z (List.mem_cons_self z xs)
    have hlt2 : ∀ y ∈ xs, pickMin f acc z < y := by
      intro y hy
      rcases pickMin_cases f acc z with hp | hp
      · rw [hp]; exact lt_trans haz (hpwz y hy)
      · rw [hp]; exact hpwz y hy
    obtain ⟨ih1, ih2⟩ := ih (pickMin f acc z) hpwxs hlt2
    rw [List.foldl_cons]
    constructor
    · rcases ih1 with h | ⟨hmem, hflt⟩
      · rcases pickMin_cases f acc z with hp | hp
        · exact Or.inl (h.trans hp)
        · refine Or.inr ⟨?_, ?_⟩
          · rw [h, hp]
            exact List.mem_cons_self z xs
          rw [h, hp]
          have : f (pickMin f acc z) ≤ f acc := pickMin_le_left f acc z
          rw [hp] at this
          rcases lt_or_eq_of_le this with hlt3 | heq
          · exact hlt3
          · -- f z = f acc: then pickMin would have kept acc, contradiction
            exfalso
            have hzacc : pickMin f acc z = acc := by
              unfold pickMin
              rw [if_neg (by rw [heq]; exact lt_irrefl _)]
            rw [hzacc] at hp
            -- hp : acc = z, but acc < z
            exact absurd hp (ne_of_lt haz)
      · refine Or.inr ⟨List.mem_cons_of_mem _ hmem, ?_⟩
        exact lt_of_lt_of_le hflt (pickMin_le_left f acc z)
    · intro y hy hyr
      rcases List.mem_cons.mp hy with rfl | hy2
      · -- y = z and z < result
        rcases ih1 with h | ⟨_, hflt⟩
        · rcases pickMin_cases f acc y with hp | hp
          · rw [h, hp] at hyr
            exact absurd hyr (not_lt.mpr (le_of_lt haz))
          · rw [h, hp] at hyr
            exact absurd hyr (lt_irrefl _)
        · exact lt_of_lt_of_le hflt (pickMin_le_right f acc y)
      · exact ih2 y hy2 hyr

theorem argminList_mem (f : ℕ → ℚ) (l : List ℕ) (r : ℕ)
    (h : argminList f l = some r) : r ∈ l := by
  cases l with
  | nil => exact absurd h (by simp [argminList])
  | cons x xs =>
    unfold argminList at h
    have hr : xs.foldl (pickMin f) x = r := Option.some.inj h
    rcases foldl_pickMin_mem f xs x with h2 | h2
    · rw [hr] at h2; rw [h2]; exact List.mem_cons_self x xs
    · rw [hr] at h2; exact List.mem_cons_of_mem _ h2

theorem argminList_le (f : ℕ → ℚ) (l : List ℕ) (r : ℕ)
    (h : argminList f l = some r) : ∀ y ∈ l, f r ≤ f y := by
  cases l with
  | nil => exact absurd h (by simp [argminList])
  | cons x xs =>
    unfold argminList at h
    have hr : xs.foldl (pickMin f) x = r := Option.some.inj h
    obtain ⟨h1, h2⟩ := foldl_pickMin_le f xs x
    rw [hr] at h1 h2
    intro y hy
    rcases List.mem_cons.mp hy with rfl | hy
    · exact h1
    · exact h2 y hy

theorem argminList_first (f : ℕ → ℚ) (l : List ℕ) (r : ℕ)
    (hpw : l.Pairwise (· < ·)) (h : argminList f l = some r) :
    ∀ y ∈ l, y < r → f r < f y := by
  cases l with
  | nil => exact absurd h (by simp [argminList])
  | cons x xs =>
    unfold argminList at h
    have hr : xs.foldl (pickMin f) x = r := Option.some.inj h
    obtain ⟨hpwx, hpwxs⟩ := List.pairwise_cons.mp hpw
    obtain ⟨h1, h2⟩ := foldl_pickMin_first f xs x hpwxs hpwx
    rw [hr] at h1 h2
    intro y hy hyr
    rcases List.mem_cons.mp hy with rfl | hy
    · rcases h1 with h1 | ⟨_, hflt⟩
      · rw [h1] at hyr; exact absurd hyr (lt_irrefl _)
      · exact hflt
    · exact h2 y hy hyr

theorem argminList_eq (f : ℕ → ℚ) (l : List ℕ) (x : ℕ)
    (hpw : l.Pairwise (· < ·)) (hx : x ∈ l)
    (hmin : ∀ y ∈ l, f x ≤ f y) (hfirst : ∀ y ∈ l, y < x → f x < f y) :
    argminList f l = some x := by
  cases l with
  | nil => exact absurd hx (List.not_mem_nil x)
  | cons z xs =>
    simp only [argminList]
    obtain ⟨hpwz, hpwxs⟩ := List.pairwise_cons.mp hpw
    rcases List.mem_cons.mp hx with rfl | hx2
    · exact congrArg some (foldl_pickMin_self f xs x
        fun y hy => not_lt.mpr (hmin y (List.mem_cons_of_mem _ hy)))
    · have hzx : z < x := hpwz x hx2
      have hfz : f x < f z := hfirst z (List.mem_cons_self z xs) hzx
      exact congrArg some (foldl_pickMin_eq f xs z x hx2
        (fun y hy => hmin y (List.mem_cons_of_mem _ hy))
        (fun y hy hyx => hfirst y (List.mem_cons_of_mem _ hy) hyx)
        hpwxs hfz)

theorem directionOK_zero (a : ℚ) : directionOK 0 a = true := rfl

theorem resultAt_amp (d : DelayData) (i : ℕ) : (resultAt d i).amp = d.filt.getD i 0 := rfl

theorem resultAt_chi2 (d : DelayData) (i : ℕ) : (resultAt d i).chi2 = chi2At d i := rfl

theorem admissibleIdx_pairwise (d : DelayData) (W : ℕ → Bool) (c : ℤ) :
    (admissibleIdx d W c).Pairwise (· < ·) :=
  (List.pairwise_lt_range _).sublist (List.filter_sublist _)

theorem admissibleIdx_trivial (d : DelayData) :
    admissibleIdx d (fun _ => true) 0 = List.range d.filt.length := by
  unfold admissibleIdx
  simp [directionOK_zero]

theorem getFitWithDelay_ok_elim (d : DelayData) (W : ℕ → Bool) (c : ℤ) (r : FitResult)
    (hc : c = -1 ∨ c = 0 ∨ c = 1) (h : getFitWithDelay d W c = .ok r) :
    ∃ i, bestDelay d W c = some i ∧ r = resultAt d i := by
  rw [getFitWithDelay, if_pos hc] at h
  rcases hbd : bestDelay d W c with _ | i
  · rw [hbd] at h
    simp at h
  · rw [hbd] at h
    exact ⟨i, rfl, (Res.ok.inj h).symm⟩

/-- Claim C5: for every stored template/PSD pair, the no-delay fit at
shift 0 and the with-delay fit constrained to the single pretrigger index
return exactly equal amplitude and chi-square. -/
theorem nodelay_eq_withdelay_pretrigger (d : DelayData)
    (h : d.pretrigger < d.filt.length) :
    ∃ r0 r1, getFitNoDelay d 0 = .ok r0 ∧
      getFitWithDelay d (fun i => i == d.pretrigger) 0 = .ok r1 ∧
      r0.amp = r1.amp ∧ r0.chi2 = r1.chi2 := by
  have hcond : 0 ≤ (d.pretrigger : ℤ) + 0 ∧
      (d.pretrigger : ℤ) + 0 < d.filt.length := by
    constructor
    · omega
    · omega
  have htn : ((d.pretrigger : ℤ) + 0).toNat = d.pretrigger := by omega
  have h1 : getFitNoDelay d 0 =
      .ok ⟨d.filt.getD d.pretrigger 0, ((0 : ℤ) : ℚ) / d.fs, chi2At d d.pretrigger⟩ := by
    unfold getFitNoDelay
    rw [if_pos hcond, htn]
  have hbd : bestDelay d (fun i => i == d.pretrigger) 0 = some d.pretrigger := by
    unfold bestDelay
    apply argminList_eq _ _ _ (admissibleIdx_pairwise d _ 0)
    · unfold admissibleIdx
      refine List.mem_filter.mpr ⟨List.mem_range.mpr h, ?_⟩
      simp [directionOK_zero]
    · intro y hy
      unfold admissibleIdx at hy
      have hyp := (List.mem_filter.mp hy).2
      simp [directionOK_zero] at hyp
      rw [hyp]
    · intro y hy hlt
      unfold admissibleIdx at hy
      have hyp := (List.mem_filter.mp hy).2
      simp [directionOK_zero] at hyp
      omega
  have h2 : getFitWithDelay d (fun i => i == d.pretrigger) 0 =
      .ok (resultAt d d.pretrigger) := by
    rw [getFitWithDelay, if_pos (Or.inr (Or.inl rfl)), hbd]
  exact ⟨_, _, h1, h2, rfl, rfl⟩

/-- Claim C6: restricting the delay-search window to indices excluding the
unconstrained best-fit delay yields a chi-square at least the unconstrained
minimum, and restricting it to a window containing that delay yields
exactly the unconstrained result. -/
theorem window_restriction_property (d : DelayData) (W : ℕ → Bool) (iU : ℕ)
    (hU : bestDelay d (fun _ => true) 0 = some iU) :
    (W iU = false → ∀ r, getFitWithDelay d W 0 = .ok r → chi2At d iU ≤ r.chi2) ∧
    (W iU = true → getFitWithDelay d W 0 = getFitWithDelay d (fun _ => true) 0) := by
  have hUfull : argminList (chi2At d) (List.range d.filt.length) = some iU := by
    have h2 := hU
    unfold bestDelay at h2
    rw [admissibleIdx_trivial] at h2
    exact h2
  have hmemU : iU ∈ List.range d.filt.length := argminList_mem _ _ _ hUfull
  have hleU : ∀ y ∈ List.range d.filt.length, chi2At d iU ≤ chi2At d y :=
    argminList_le _ _ _ hUfull
  have hfirstU := argminList_first _ _ _ (List.pairwise_lt_range _) hUfull
  constructor
  · intro _ r hr
    obtain ⟨i, hbd, hri⟩ := getFitWithDelay_ok_elim d W 0 r (Or.inr (Or.inl rfl)) hr
    unfold bestDelay at hbd
    have hiA := argminList_mem _ _ _ hbd
    unfold admissibleIdx at hiA
    have hirange : i ∈ List.range d.filt.length := (List.mem_filter.mp hiA).1
    rw [hri, resultAt_chi2]
    exact hleU i hirange
  · intro hWtrue
    have hiA : iU ∈ admissibleIdx d W 0 := by
      unfold admissibleIdx
      refine List.mem_filter.mpr ⟨hmemU, ?_⟩
      simp [hWtrue, directionOK_zero]
    have hbdW : bestDelay d W 0 = some iU := by
      unfold bestDelay
      apply argminList_eq _ _ _ (admissibleIdx_pairwise d W 0) hiA
      · intro y hy
        unfold admissibleIdx at hy
        exact hleU y (List.mem_filter.mp hy).1
      · intro y hy hlt
        unfold admissibleIdx at hy
        exact hfirstU y (List.mem_filter.mp hy).1 hlt
    rw [getFitWithDelay, getFitWithDelay,
      if_pos (Or.inr (Or.inl rfl)), if_pos (Or.inr (Or.inl rfl)), hbdW, hU]

/-- Claim C7: under a positive (value 1) pulse-direction constraint every
negative-amplitude index is excluded, so a returned fit has non-negative
amplitude and a chi-square at least the unconstrained optimum over the
same window; symmetrically the negative (value -1) constraint returns a
non-positive amplitude. -/
theorem direction_constraint_property (d : DelayData) (W : ℕ → Bool) :
    (∀ r, getFitWithDelay d W 1 = .ok r → 0 ≤ r.amp ∧
      ∀ rU, getFitWithDelay d W 0 = .ok rU → rU.chi2 ≤ r.chi2) ∧
    (∀ r, getFitWithDelay d W (-1) = .ok r → r.amp ≤ 0) := by
  constructor
  · intro r hr
    obtain ⟨i, hbd, hri⟩ := getFitWithDelay_ok_elim d W 1 r (Or.inr (Or.inr rfl)) hr
    unfold bestDelay at hbd
    have hiA := argminList_mem _ _ _ hbd
    unfold admissibleIdx at hiA
    obtain ⟨hir, hpred⟩ := List.mem_filter.mp hiA
    simp only [Bool.and_eq_true] at hpred
    obtain ⟨hWi, hdir⟩ := hpred
    have hamp : 0 ≤ d.filt.getD i 0 := by
      simp only [directionOK] at hdir
      rw [if_pos trivial] at hdir
      exact of_decide_eq_true hdir
    constructor
    · rw [hri, resultAt_amp]
      exact hamp
    · intro rU hrU
      obtain ⟨iU, hbdU, hriU⟩ := getFitWithDelay_ok_elim d W 0 rU (Or.inr (Or.inl rfl)) hrU
      unfold bestDelay at hbdU
      have hi0 : i ∈ admissibleIdx d W 0 := by
        unfold admissibleIdx
        refine List.mem_filter.mpr ⟨hir, ?_⟩
        simp [hWi, directionOK_zero]
      have hle := argminList_le _ _ _ hbdU i hi0
      rw [hri, hriU, resultAt_chi2, resultAt_chi2]
      exact hle
  · intro r hr
    obtain ⟨i, hbd, hri⟩ := getFitWithDelay_ok_elim d W (-1) r (Or.inl rfl) hr
    unfold bestDelay at hbd
    have hiA := argminList_mem _ _ _ hbd
    unfold admissibleIdx at hiA
    obtain ⟨_, hpred⟩ := List.mem_filter.mp hiA
    simp only [Bool.and_eq_true] at hpred
    obtain ⟨_, hdir⟩ := hpred
    have hamp : d.filt.getD i 0 ≤ 0 := by
      simp only [directionOK] at hdir
      rw [if_pos trivial] at hdir
      exact of_decide_eq_true hdir
    rw [hri, resultAt_amp]
    exact hamp

/-- Claim C10: a delay fit called with a pulse-direction constraint other
than -1, 0 or 1 fails by raising ValueError. -/
theorem direction_constraint_valueError (d : DelayData) (W : ℕ → Bool) (c : ℤ)
    (h : ¬(c = -1 ∨ c = 0 ∨ c = 1)) :
    getFitWithDelay d W c = .err .valueError := by
  rw [getFitWithDelay, if_neg h]

theorem nodelay_eq_withdelay_pretrigger_witness :
    dC5ex.pretrigger < dC5ex.filt.length ∧
    (∃ r0 r1, getFitNoDelay dC5ex 0 = .ok r0 ∧
      getFitWithDelay dC5ex (fun i => i == dC5ex.pretrigger) 0 = .ok r1 ∧
      r0.amp = r1.amp ∧ r0.chi2 = r1.chi2) :=
  ⟨by norm_num [dC5ex], nodelay_eq_withdelay_pretrigger dC5ex (by norm_num [dC5ex])⟩

theorem window_restriction_property_witness :
    bestDelay dC6ex (fun _ => true) 0 = some 0 ∧
    chi2At dC6ex 0 ≤ (FitResult.mk 1 1 9).chi2 ∧
    getFitWithDelay dC6ex (fun i => i == 0) 0 =
      getFitWithDelay dC6ex (fun _ => true) 0 := by
  have hr2 : List.range 2 = [0, 1] := rfl
  have hU : bestDelay dC6ex (fun _ => true) 0 = some 0 := by
    norm_num [bestDelay, admissibleIdx, dC6ex, directionOK, argminList, pickMin,
      chi2At, hr2]
  have hfit : getFitWithDelay dC6ex (fun i => i == 1) 0 = .ok ⟨1, 1, 9⟩ := by
    norm_num [getFitWithDelay, bestDelay, admissibleIdx, dC6ex, directionOK,
      argminList, pickMin, chi2At, resultAt, wrapIndex, hr2]
  refine ⟨hU, ?_, ?_⟩
  · exact (window_restriction_property dC6ex (fun i => i == 1) 0 hU).1 rfl
      ⟨1, 1, 9⟩ hfit
  · exact (window_restriction_property dC6ex (fun i => i == 0) 0 hU).2 rfl

theorem direction_constraint_property_witness :
    (0:ℚ) ≤ (FitResult.mk 1 1 9).amp ∧
    (FitResult.mk (-3) 0 1).chi2 ≤ (FitResult.mk 1 1 9).chi2 := by
  have hr2 : List.range 2 = [0, 1] := rfl
  have h1 : getFitWithDelay dC7ex (fun _ => true) 1 = .ok ⟨1, 1, 9⟩ := by
    norm_num [getFitWithDelay, bestDelay, admissibleIdx, dC7ex, directionOK,
      argminList, pickMin, chi2At, resultAt, wrapIndex, hr2]
  have h0 : getFitWithDelay dC7ex (fun _ => true) 0 = .ok ⟨-3, 0, 1⟩ := by
    norm_num [getFitWithDelay, bestDelay, admissibleIdx, dC7ex, directionOK,
      argminList, pickMin, chi2At, resultAt, wrapIndex, hr2]
  obtain ⟨ha, hb⟩ := (direction_constraint_property dC7ex (fun _ => true)).1
    ⟨1, 1, 9⟩ h1
  exact ⟨ha, hb ⟨-3, 0, 1⟩ h0⟩

theorem direction_constraint_valueError_witness :
    ¬((2:ℤ) = -1 ∨ (2:ℤ) = 0 ∨ (2:ℤ) = 1) ∧
    getFitWithDelay dC6ex (fun _ => true) 2 = .err .valueError :=
  ⟨by decide, direction_constraint_valueError dC6ex (fun _ => true) 2 (by decide)⟩

/-- Claim C8: when the with-delay fit raises, `OF1x1.calc` propagates the
error and the previously stored fit results keep their prior values — the
result fields are assigned only after `get_fit_withdelay` returns. -/
theorem calc_error_preserves_results (st : OrchState) (W : ℕ → Bool) (c : ℤ)
    (b : Bool) (e : PyError)
    (h : getFitWithDelay (delayDataOf st) W c = .err e) :
    calcOrch st W c b = (st, some e) := by
  unfold calcOrch
  rw [h]

theorem calc_error_preserves_results_witness :
    getFitWithDelay (delayDataOf stC8ex) (fun _ => true) 2 = .err .valueError ∧
    calcOrch stC8ex (fun _ => true) 2 true = (stC8ex, some .valueError) := by
  have h : getFitWithDelay (delayDataOf stC8ex) (fun _ => true) 2 =
      .err .valueError := by
    rw [getFitWithDelay, if_neg (by decide)]
  exact ⟨h, calc_error_preserves_results stC8ex (fun _ => true) 2 true .valueError h⟩

theorem calcOrch_keeps_kernel (st : OrchState) (W : ℕ → Bool) (c : ℤ) (b : Bool) :
    (calcOrch st W c b).1.templatePower = st.templatePower ∧
    (calcOrch st W c b).1.psd = st.psd := by
  unfold calcOrch
  split
  · exact ⟨rfl, rfl⟩
  · split
    · dsimp only
      split
      · exact ⟨rfl, rfl⟩
      · exact ⟨rfl, rfl⟩
    · exact ⟨rfl, rfl⟩

/-- Claim C9: the energy resolution is independent of the current signal
and of any performed fit — two pipeline runs from the same kernel state
with different signals report equal resolutions. -/
theorem energyResolution_signal_independent (st : OrchState) (s1 s2 : List ℚ)
    (proj1 proj2 : List ℚ → List ℚ × ℚ) (W1 W2 : ℕ → Bool) (c1 c2 : ℤ)
    (b1 b2 : Bool) :
    energyResolutionOrch (runEvent st s1 proj1 W1 c1 b1) =
      energyResolutionOrch (runEvent st s2 proj2 W2 c2 b2) := by
  have k1 := calcOrch_keeps_kernel (updateSignal st s1 proj1) W1 c1 b1
  have k2 := calcOrch_keeps_kernel (updateSignal st s2 proj2) W2 c2 b2
  unfold energyResolutionOrch runEvent
  rw [k1.1, k1.2, k2.1, k2.2]
  simp [updateSignal]

/-- Claim C2 counterexample: constructing `OF1x1` with `template=None` and
the tag "other", absent from a base that holds only "default", returns
early after printing an error — it does not raise NotFoundError. -/
theorem of1x1Init_unknownTag_no_notFound :
    of1x1Init (some baseC2ex) "other" none none none none none "AC" =
      .earlyReturn ∧
    of1x1Init (some baseC2ex) "other" none none none none none "AC" ≠
      .raised .notFoundError := by
  have h : of1x1Init (some baseC2ex) "other" none none none none none "AC" =
      .earlyReturn := by decide
  refine ⟨h, ?_⟩
  rw [h]
  intro hc
  exact InitOutcome.noConfusion hc

/-- Claim C2 (amended): a filter-kernel request under a tag with no stored
template fails with NotFoundError, but constructing `OF1x1` with
`template=None` and a tag absent from the OF base does not raise: it
prints an error and returns early, leaving initialization incomplete. -/
theorem of1x1Init_unknownTag_early_return (b : OFBaseState) (tag : String)
    (psd : Option (List ℚ)) (coupling : String) (h : tag ∉ templateTags b) :
    requestKernel b tag = .err .notFoundError ∧
    of1x1Init (some b) tag none psd none none none coupling = .earlyReturn := by
  constructor
  · unfold requestKernel
    rw [if_neg h]
  · simp only [of1x1Init, of1x1InitBody]
    rw [if_neg h]

theorem of1x1Init_unknownTag_early_return_witness :
    ("other" ∉ templateTags baseC2ex) ∧
    requestKernel baseC2ex "other" = .err .notFoundError ∧
    of1x1Init (some baseC2ex) "other" none none none none none "AC" =
      .earlyReturn := by
  have h : "other" ∉ templateTags baseC2ex := by decide
  exact ⟨h, (of1x1Init_unknownTag_early_return baseC2ex "other" none "AC" h).1,
    (of1x1Init_unknownTag_early_return baseC2ex "other" none "AC" h).2⟩

/-- Claim C3: `process_dumps` calls the per-dump worker with
`channel_templates` and `channel_psds` left at None — they are never
forwarded — and in that case the unconditional `columns.extend(chan_columns)`
reads a name bound only under `if lgc_chans:`, so the call raises NameError
before any trace is processed. -/
theorem processDumps_always_nameError (filelist : List Dump)
    (ct cp : Option (List (List ℚ))) (traceFit : List ℚ → List ℚ)
    (h : filelist ≠ []) :
    (∀ d : Dump, processSingleDump none none traceFit d = .err .nameError) ∧
    processDumps filelist ct cp traceFit = .err .nameError := by
  have hsingle : ∀ d : Dump,
      processSingleDump none none traceFit d = .err .nameError := fun _ => rfl
  refine ⟨hsingle, ?_⟩
  cases filelist with
  | nil => exact absurd rfl h
  | cons d rest =>
    simp only [processDumps, processDumpsLoop, hsingle d]

theorem processDumps_always_nameError_witness :
    ([dumpC3ex] ≠ ([] : List Dump)) ∧
    processDumps [dumpC3ex] none none (fun t => t) = .err .nameError := by
  have h : [dumpC3ex] ≠ ([] : List Dump) := by simp
  exact ⟨h, (processDumps_always_nameError [dumpC3ex] none none (fun t => t) h).2⟩

theorem wdot_nil_left (t v : List ℚ) : wdot [] t v = 0 := by
  simp [wdot]

theorem wdot_nil_mid (w v : List ℚ) : wdot w [] v = 0 := by
  simp [wdot]

theorem wdot_nil_right (w t : List ℚ) : wdot w t [] = 0 := by
  simp [wdot]

theorem wdot_cons (a c z : ℚ) (as cs zs : List ℚ) :
    wdot (a :: as) (c :: cs) (z :: zs) = c * z * a + wdot as cs zs := by
  simp [wdot]

theorem wdot_comm (w u v : List ℚ) : wdot w u v = wdot w v u := by
  unfold wdot
  rw [List.zipWith_comm_of_comm (· * ·) mul_comm u v]

theorem wdot_linear (w t u v : List ℚ) (a0 a1 : ℚ) (hlen : u.length = v.length) :
    wdot w t (List.zipWith (fun x y => a0 * x + a1 * y) u v) =
      a0 * wdot w t u + a1 * wdot w t v := by
  induction u generalizing v w t with
  | nil =>
    cases v with
    | nil => simp [wdot_nil_right]
    | cons y ys => exact absurd hlen (by simp)
  | cons x xs ih =>
    cases v with
    | nil => exact absurd hlen (by simp)
    | cons y ys =>
      cases t with
      | nil => simp [wdot_nil_mid]
      | cons c cs =>
        cases w with
        | nil => simp [wdot_nil_left]
        | cons a as =>
          rw [List.zipWith_cons_cons, wdot_cons, wdot_cons, wdot_cons,
            ih as cs ys (by simpa using hlen)]
          ring

/-- Claim C1: for a synthetic noiseless signal equal to the signal template
times `a0` plus the background template times `a1`, the multi-template fit
returns the amplitude pair exactly (hence within relative tolerance 1e-7),
in particular at the muon-tail regression amplitudes. -/
theorem fitMulti_roundtrip (w t0 t1 : List ℚ) (a0 a1 : ℚ)
    (hlen : t0.length = t1.length)
    (hdet : wdot w t0 t0 * wdot w t1 t1 - wdot w t0 t1 * wdot w t0 t1 ≠ 0) :
    fitMulti w t0 t1 (List.zipWith (fun x y => a0 * x + a1 * y) t0 t1) =
      .ok (a0, a1) := by
  unfold fitMulti
  rw [if_neg hdet]
  rw [wdot_linear w t0 t0 t1 a0 a1 hlen, wdot_linear w t1 t0 t1 a0 a1 hlen,
    wdot_comm w t1 t0]
  simp only [Res.ok.injEq, Prod.mk.injEq]
  constructor
  · rw [div_eq_iff hdet]
    ring
  · rw [div_eq_iff hdet]
    ring

theorem fitMulti_roundtrip_witness :
    t0C1.length = t1C1.length ∧
    wdot wC1 t0C1 t0C1 * wdot wC1 t1C1 t1C1 -
      wdot wC1 t0C1 t1C1 * wdot wC1 t0C1 t1C1 ≠ 0 ∧
    fitMulti wC1 t0C1 t1C1
      (List.zipWith (fun x y => a0C1 * x + a1C1 * y) t0C1 t1C1) =
      .ok (a0C1, a1C1) := by
  have h1 : t0C1.length = t1C1.length := rfl
  have h2 : wdot wC1 t0C1 t0C1 * wdot wC1 t1C1 t1C1 -
      wdot wC1 t0C1 t1C1 * wdot wC1 t0C1 t1C1 ≠ 0 := by
    norm_num [wdot, wC1, t0C1, t1C1]
  exact ⟨h1, h2, fitMulti_roundtrip wC1 t0C1 t1C1 a0C1 a1C1 h1 h2⟩

theorem zipDiv_nonneg : ∀ (tp pp : List ℝ), (∀ t ∈ tp, 0 ≤ t) →
    (∀ p ∈ pp, 0 < p) → 0 ≤ (List.zipWith (fun t p => t / p) tp pp).sum := by
  intro tp
  induction tp with
  | nil =>
    intro pp _ _
    simp
  | cons t ts ih =>
    intro pp ht hp
    cases pp with
    | nil => simp
    | cons p ps =>
      rw [List.zipWith_cons_cons, List.sum_cons]
      have h1 : 0 ≤ t / p :=
        div_nonneg (ht t (List.mem_cons_self t ts))
          (le_of_lt (hp p (List.mem_cons_self p ps)))
      have h2 := ih ps (fun x hx => ht x (List.mem_cons_of_mem _ hx))
        (fun x hx => hp x (List.mem_cons_of_mem _ hx))
      exact add_nonneg h1 h2

theorem zipDiv_pos : ∀ (tp pp : List ℝ), tp.length = pp.length →
    (∀ t ∈ tp, 0 ≤ t) → (∀ p ∈ pp, 0 < p) → (∃ t ∈ tp, 0 < t) →
    0 < (List.zipWith (fun t p => t / p) tp pp).sum := by
  intro tp
  induction tp with
  | nil =>
    intro pp _ _ _ hex
    rcases hex with ⟨t, ht, _⟩
    exact absurd ht (List.not_mem_nil t)
  | cons t ts ih =>
    intro pp hlen ht hp hex
    cases pp with
    | nil => exact absurd hlen (by simp)
    | cons p ps =>
      rw [List.zipWith_cons_cons, List.sum_cons]
      have hppos : 0 < p := hp p (List.mem_cons_self p ps)
      rcases hex with ⟨x, hx, hxpos⟩
      rcases List.mem_cons.mp hx with rfl | hx2
      · have h1 : 0 < x / p := div_pos hxpos hppos
        have h2 := zipDiv_nonneg ts ps
          (fun y hy => ht y (List.mem_cons_of_mem _ hy))
          (fun y hy => hp y (List.mem_cons_of_mem _ hy))
        linarith
      · have h1 : 0 ≤ t / p :=
          div_nonneg (ht t (List.mem_cons_self t ts)) (le_of_lt hppos)
        have h2 := ih ps (by simpa using hlen)
          (fun y hy => ht y (List.mem_cons_of_mem _ hy))
          (fun y hy => hp y (List.mem_cons_of_mem _ hy)) ⟨x, hx2, hxpos⟩
        linarith

theorem zipDiv_scale (k : ℝ) : ∀ (tp pp : List ℝ),
    (List.zipWith (fun t p => t / (k * p)) tp pp).sum =
      k⁻¹ * (List.zipWith (fun t p => t / p) tp pp).sum := by
  intro tp
  induction tp with
  | nil =>
    intro pp
    simp
  | cons t ts ih =>
    intro pp
    cases pp with
    | nil => simp
    | cons p ps =>
      rw [List.zipWith_cons_cons, List.zipWith_cons_cons, List.sum_cons,
        List.sum_cons, ih ps]
      have hstep : t / (k * p) = k⁻¹ * (t / p) := by
        rw [div_eq_mul_inv, div_eq_mul_inv, mul_inv]
        ring
      rw [hstep]
      ring

/-- Claim C4: for every template and PSD (nondegenerate: nonnegative
template power with at least one positive bin, strictly positive PSD
bins), the energy resolution is strictly positive, and multiplying the
whole PSD by a positive scalar `k` multiplies it by `sqrt k`. -/
theorem energyResolution_pos_scaling (tp pp : List ℝ) (k : ℝ)
    (hlen : tp.length = pp.length) (ht : ∀ t ∈ tp, 0 ≤ t)
    (hp : ∀ p ∈ pp, 0 < p) (hex : ∃ t ∈ tp, 0 < t) (hk : 0 < k) :
    0 < energyResolutionR tp pp ∧
    energyResolutionR tp (pp.map fun p => k * p) =
      Real.sqrt k * energyResolutionR tp pp := by
  have hS : 0 < (List.zipWith (fun t p => t / p) tp pp).sum :=
    zipDiv_pos tp pp hlen ht hp hex
  have hN : (0:ℝ) < tp.length := by
    rcases hex with ⟨x, hx, _⟩
    have hpos : 0 < tp.length := List.length_pos.mpr (List.ne_nil_of_mem hx)
    exact_mod_cast hpos
  have hnorm : 0 < ofNormR tp pp := div_pos hS hN
  constructor
  · unfold energyResolutionR
    exact one_div_pos.mpr (Real.sqrt_pos.mpr hnorm)
  · have hmap : List.zipWith (fun t p => t / p) tp (pp.map fun p => k * p) =
        List.zipWith (fun t p => t / (k * p)) tp pp := by
      rw [List.zipWith_map_right]
    have honorm : ofNormR tp (pp.map fun p => k * p) = k⁻¹ * ofNormR tp pp := by
      unfold ofNormR
      rw [hmap, zipDiv_scale k tp pp]
      ring
    unfold energyResolutionR
    rw [honorm, mul_comm (k⁻¹) _, Real.sqrt_mul (le_of_lt hnorm),
      Real.sqrt_inv, one_div, one_div, mul_inv, inv_inv]
    ring

theorem energyResolution_pos_scaling_witness :
    (0:ℝ) < 4 ∧ 0 < energyResolutionR [1] [1] ∧
    energyResolutionR [1] (([1] : List ℝ).map fun p => 4 * p) =
      Real.sqrt 4 * energyResolutionR [1] [1] := by
  have ht : ∀ t ∈ ([1] : List ℝ), 0 ≤ t := by
    intro t htm
    simp at htm
    rw [htm]
    norm_num
  have hp : ∀ p ∈ ([1] : List ℝ), 0 < p := by
    intro p hpm
    simp at hpm
    rw [hpm]
    norm_num
  have hex : ∃ t ∈ ([1] : List ℝ), 0 < t := ⟨1, by simp, by norm_num⟩
  have hk : (0:ℝ) < 4 := by norm_num
  obtain ⟨h1, h2⟩ := energyResolution_pos_scaling [1] [1] 4 rfl ht hp hex hk
  exact ⟨hk, h1, h2⟩

end QETpy

